import Mathlib

/-!
Verification of the text-structure analyzers of `vscode-manuals`
(`src/extension.ts`) over a shallow embedding of the TypeScript code.
Strings are modelled as `List Char`; JavaScript's `split`, `trimEnd`,
the two regular expressions and the two provider loops are translated
directly from the source.
-/

namespace Manuals

/-- JavaScript `String.prototype.split` with a single-character separator:
splits at every occurrence, keeping empty pieces (the source uses
`split('(')`, `split(')')` and `split('\n')` at `extension.ts` lines 12,
15, 46 and 70). -/
def splitOnChar (sep : Char) : List Char → List (List Char)
  | [] => [[]]
  | x :: xs =>
    match splitOnChar sep xs with
    | [] => [[x]]
    | y :: ys => if x = sep then [] :: y :: ys else (x :: y) :: ys

/-- JavaScript `String.prototype.trimEnd`: drops trailing whitespace
(`extension.ts` line 14). -/
def trimEnd (s : List Char) : List Char :=
  (s.reverse.dropWhile Char.isWhitespace).reverse

/-- Failure outcomes of the embedded code.  `typeError` models the
JavaScript `TypeError` raised when a method is called on `undefined`
(`parseManEntry` does so via `parts[1].split(')')` when its input has no
parenthesis); `invalidManPage` models the string thrown at
`extension.ts` line 90.  `malformedEntry` is the clean error kind the
specification requires of the apropos parser; the source never produces
it. -/
inductive ManualsError where
  | typeError
  | malformedEntry
  | invalidManPage
deriving DecidableEq, Repr

/-- `interface ManEntry` (`extension.ts` lines 4–7). -/
structure ManEntry where
  name : List Char
  «section» : List Char
deriving DecidableEq, Repr

/-- `parseManEntry` (`extension.ts` lines 10–17): split the line at `'('`;
`name` is `parts[0]` with trailing whitespace trimmed, `section` is the
part of `parts[1]` before the first `')'`.  When the input contains no
`'('`, `parts[1]` is `undefined` and `parts[1].split(')')` throws a
`TypeError`. -/
def parseManEntry (apropos : List Char) : Except ManualsError ManEntry :=
  match splitOnChar '(' apropos with
  | p0 :: p1 :: _ => .ok ⟨trimEnd p0, (splitOnChar ')' p1).headD []⟩
  | _ => .error .typeError

theorem splitOnChar_ne_nil (sep : Char) (s : List Char) : splitOnChar sep s ≠ [] := by
  cases s with
  | nil => simp [splitOnChar]
  | cons x xs =>
    simp only [splitOnChar]
    cases h : splitOnChar sep xs with
    | nil => simp
    | cons y ys =>
      by_cases hx : x = sep <;> simp [hx]

theorem splitOnChar_head (sep : Char) (s : List Char) :
    (splitOnChar sep s).headD [] = s.takeWhile (· ≠ sep) := by
  induction s with
  | nil => rfl
  | cons x xs ih =>
    simp only [splitOnChar]
    cases h : splitOnChar sep xs with
    | nil => exact absurd h (splitOnChar_ne_nil sep xs)
    | cons y ys =>
      rw [h] at ih
      by_cases hx : x = sep
      · subst hx
        simp [List.takeWhile_cons]
      · simp only [if_neg hx, List.takeWhile_cons, hx, decide_not]
        simp only [List.headD_cons] at ih ⊢
        simp [hx, ih]

theorem splitOnChar_not_mem {sep : Char} {s : List Char} (h : sep ∉ s) :
    splitOnChar sep s = [s] := by
  induction s with
  | nil => rfl
  | cons x xs ih =>
    have hx : x ≠ sep := by
      rintro rfl
      exact h (List.mem_cons_self x xs)
    have hxs : sep ∉ xs := fun hm => h (List.mem_cons_of_mem _ hm)
    simp only [splitOnChar, ih hxs]
    simp [hx]

theorem splitOnChar_append {sep : Char} {p : List Char} (h : sep ∉ p) (r : List Char) :
    splitOnChar sep (p ++ sep :: r) = p :: splitOnChar sep r := by
  induction p with
  | nil =>
    simp only [List.nil_append, splitOnChar]
    cases hr : splitOnChar sep r with
    | nil => exact absurd hr (splitOnChar_ne_nil sep r)
    | cons y ys => simp
  | cons x xs ih =>
    have hx : x ≠ sep := by
      rintro rfl
      exact h (List.mem_cons_self x xs)
    have hxs : sep ∉ xs := fun hm => h (List.mem_cons_of_mem _ hm)
    simp only [List.cons_append, splitOnChar, List.append_eq]
    rw [ih hxs]
    simp [hx]

theorem takeWhile_append_all {α : Type} {p : α → Bool} {l : List α}
    (h : ∀ x ∈ l, p x = true) (r : List α) :
    (l ++ r).takeWhile p = l ++ r.takeWhile p := by
  induction l with
  | nil => rfl
  | cons x xs ih =>
    have hx := h x (List.mem_cons_self x xs)
    simp [List.takeWhile_cons, hx, ih (fun y hy => h y (List.mem_cons_of_mem _ hy))]

theorem takeWhile_all {α : Type} {p : α → Bool} {l : List α}
    (h : ∀ x ∈ l, p x = true) : l.takeWhile p = l := by
  have h2 := takeWhile_append_all h []
  simpa using h2

theorem mem_takeWhile_mem {α : Type} {p : α → Bool} {l : List α} {x : α}
    (h : x ∈ l.takeWhile p) : x ∈ l :=
  (List.takeWhile_sublist p).subset h

theorem mem_takeWhile_pred {α : Type} {p : α → Bool} {l : List α} {x : α}
    (h : x ∈ l.takeWhile p) : p x = true := by
  induction l with
  | nil => cases h
  | cons a t ih =>
    rw [List.takeWhile_cons] at h
    by_cases ha : p a = true
    · rw [if_pos ha] at h
      rcases List.mem_cons.mp h with rfl | h'
      · exact ha
      · exact ih h'
    · rw [if_neg ha] at h
      cases h

theorem mem_trimEnd_mem {s : List Char} {x : Char} (h : x ∈ trimEnd s) : x ∈ s := by
  unfold trimEnd at h
  rw [List.mem_reverse] at h
  exact List.mem_reverse.mp ((List.dropWhile_sublist Char.isWhitespace).subset h)

theorem trimEnd_append_space (s : List Char) : trimEnd (s ++ [' ']) = trimEnd s := by
  unfold trimEnd
  have hw : Char.isWhitespace ' ' = true := by decide
  simp [List.reverse_append, List.dropWhile_cons, hw]

theorem parseManEntry_no_paren {s : List Char} (h : '(' ∉ s) :
    parseManEntry s = .error .typeError := by
  unfold parseManEntry
  rw [splitOnChar_not_mem h]

theorem parseManEntry_split {pre : List Char} (h : '(' ∉ pre) (rest : List Char) :
    parseManEntry (pre ++ '(' :: rest) =
      .ok ⟨trimEnd pre, (rest.takeWhile (· ≠ '(')).takeWhile (· ≠ ')')⟩ := by
  unfold parseManEntry
  rw [splitOnChar_append h]
  cases hr : splitOnChar '(' rest with
  | nil => exact absurd hr (splitOnChar_ne_nil _ rest)
  | cons p1 ps =>
    have h1 : p1 = rest.takeWhile (· ≠ '(') := by
      have hh := splitOnChar_head '(' rest
      rw [hr] at hh
      simpa using hh
    have h2 : (splitOnChar ')' p1).headD [] = p1.takeWhile (· ≠ ')') :=
      splitOnChar_head ')' p1
    show (Except.ok (ManEntry.mk (trimEnd pre) ((splitOnChar ')' p1).headD []))
          : Except ManualsError ManEntry) = _
    rw [h2, h1]

theorem exists_first_split {a : Char} {s : List Char} (h : a ∈ s) :
    ∃ pre rest, s = pre ++ a :: rest ∧ a ∉ pre := by
  induction s with
  | nil => cases h
  | cons x xs ih =>
    by_cases hx : x = a
    · exact ⟨[], xs, by simp [hx], by simp⟩
    · have hxs : a ∈ xs := by
        rcases List.mem_cons.mp h with h' | h'
        · exact absurd h'.symm hx
        · exact h'
      rcases ih hxs with ⟨pre, rest, rfl, hp⟩
      refine ⟨x :: pre, rest, rfl, ?_⟩
      simp only [List.mem_cons, not_or]
      exact ⟨fun he => hx he.symm, hp⟩

/-- C1: on every line containing no `'('`, `parseManEntry` crashes with
the JavaScript `TypeError` raised by calling `split` on the `undefined`
`parts[1]`; it never fails with the clean `MalformedEntry` error the
specification requires. -/
theorem c1_no_paren_crashes_not_malformed {s : List Char} (h : '(' ∉ s) :
    parseManEntry s = .error .typeError ∧
      parseManEntry s ≠ .error .malformedEntry := by
  refine ⟨parseManEntry_no_paren h, ?_⟩
  rw [parseManEntry_no_paren h]
  simp

/-- C1 witness: the empty line (as produced at the end of `man -k`
output) contains no parenthesis; the parser crashes on it with the
`TypeError`, not with `MalformedEntry`. -/
theorem c1_witness :
    parseManEntry [] = .error .typeError ∧
      parseManEntry [] ≠ .error .malformedEntry :=
  c1_no_paren_crashes_not_malformed (by decide)

theorem first_split_unique {a : Char} :
    ∀ {p1 r1 p2 r2 : List Char}, p1 ++ a :: r1 = p2 ++ a :: r2 →
      a ∉ p1 → a ∉ p2 → p1 = p2 ∧ r1 = r2 := by
  intro p1
  induction p1 with
  | nil =>
    intro r1 p2 r2 heq _ hp2
    cases p2 with
    | nil =>
      simp only [List.nil_append, List.cons.injEq] at heq
      exact ⟨rfl, heq.2⟩
    | cons y t2 =>
      simp only [List.nil_append, List.cons_append, List.cons.injEq] at heq
      exact absurd (heq.1 ▸ List.mem_cons_self y t2) hp2
  | cons x t1 ih =>
    intro r1 p2 r2 heq hp1 hp2
    cases p2 with
    | nil =>
      simp only [List.cons_append, List.nil_append, List.cons.injEq] at heq
      exact absurd (heq.1 ▸ List.mem_cons_self x t1) hp1
    | cons y t2 =>
      simp only [List.cons_append, List.cons.injEq] at heq
      have ht1 : a ∉ t1 := fun hm => hp1 (List.mem_cons_of_mem _ hm)
      have ht2 : a ∉ t2 := fun hm => hp2 (List.mem_cons_of_mem _ hm)
      rcases ih heq.2 ht1 ht2 with ⟨hp, hr⟩
      exact ⟨by rw [heq.1, hp], hr⟩

/-- The section computed by `parseManEntry` from the text after the first
`'('` is exactly the text up to the following `')'`, provided no second
`'('` intervenes before that `')'`. -/
theorem section_extract {mid : List Char} (h1 : '(' ∉ mid) (h2 : ')' ∉ mid)
    (post : List Char) :
    ((mid ++ ')' :: post).takeWhile (· ≠ '(')).takeWhile (· ≠ ')') = mid := by
  have hall1 : ∀ x ∈ mid, (fun c => decide (c ≠ '(')) x = true := by
    intro x hx
    simp only [decide_eq_true_eq]
    rintro rfl
    exact h1 hx
  have hall2 : ∀ x ∈ mid, (fun c => decide (c ≠ ')')) x = true := by
    intro x hx
    simp only [decide_eq_true_eq]
    rintro rfl
    exact h2 hx
  rw [takeWhile_append_all hall1, takeWhile_append_all hall2]
  have hx : ((')' :: post).takeWhile (· ≠ '(')).takeWhile (· ≠ ')') = [] := by
    simp [List.takeWhile_cons]
  rw [hx, List.append_nil]

theorem not_paren_append_space {nm : List Char} (hn : '(' ∉ nm) :
    '(' ∉ nm ++ [' '] := by
  intro hmem
  rcases List.mem_append.mp hmem with h' | h'
  · exact hn h'
  · simp at h'

theorem append_space_paren (nm X : List Char) :
    nm ++ ' ' :: '(' :: X = (nm ++ [' ']) ++ '(' :: X := by
  rw [List.append_assoc]
  rfl

/-- Modelled from the spec: the addressing scheme `man:<name> (<section>)`
(spec §6).  The source builds such address strings at `extension.ts`
lines 56 and 102; there is no dedicated formatting function in `src/`. -/
def formatAddress (e : ManEntry) : List Char :=
  'm' :: 'a' :: 'n' :: ':' :: (e.name ++ ' ' :: '(' :: (e.«section» ++ [')']))

/-- C4 counterexample: parsing the full address string (with its `man:`
scheme) with `parseManEntry`'s splitting rule prepends `man:` to the
name, so `parse(format(e)) ≠ e` even for `e = {name := "foo", section :=
"1"}` whose name has no parenthesis.  Moreover, even after stripping the
scheme, a name with trailing whitespace or a section containing a
parenthesis does not round-trip. -/
theorem c4_counterexample :
    (parseManEntry (formatAddress ⟨['f', 'o', 'o'], ['1']⟩) =
        .ok ⟨['m', 'a', 'n', ':', 'f', 'o', 'o'], ['1']⟩ ∧
      (⟨['m', 'a', 'n', ':', 'f', 'o', 'o'], ['1']⟩ : ManEntry) ≠ ⟨['f', 'o', 'o'], ['1']⟩) ∧
    (parseManEntry ((formatAddress ⟨['a', ' '], ['1']⟩).drop 4) = .ok ⟨['a'], ['1']⟩ ∧
      (⟨['a'], ['1']⟩ : ManEntry) ≠ ⟨['a', ' '], ['1']⟩) ∧
    (parseManEntry ((formatAddress ⟨['a'], [')']⟩).drop 4) = .ok ⟨['a'], []⟩ ∧
      (⟨['a'], []⟩ : ManEntry) ≠ ⟨['a'], [')']⟩) :=
  ⟨⟨by rfl, by decide⟩, ⟨by rfl, by decide⟩, ⟨by rfl, by decide⟩⟩

/-- C4 (amended): for every `ManEntry` whose name contains no parenthesis
and no trailing whitespace, and whose section contains no parenthesis,
parsing the path of the address string `man:<name> (<section>)` — the
part after the `man:` scheme, which is what `vscode.Uri` hands to
`parseManEntry` at `extension.ts` line 32 — yields the entry back. -/
theorem c4_roundtrip (e : ManEntry) (hn : '(' ∉ e.name)
    (ht : trimEnd e.name = e.name)
    (hs1 : '(' ∉ e.«section») (hs2 : ')' ∉ e.«section») :
    parseManEntry ((formatAddress e).drop 4) = .ok e := by
  rcases e with ⟨nm, sec⟩
  simp only at hn ht hs1 hs2
  have hpath : (formatAddress ⟨nm, sec⟩).drop 4 =
      (nm ++ [' ']) ++ '(' :: (sec ++ ')' :: []) := by
    show nm ++ ' ' :: '(' :: (sec ++ [')']) = _
    exact append_space_paren nm _
  rw [hpath, parseManEntry_split (not_paren_append_space hn)]
  rw [section_extract hs1 hs2, trimEnd_append_space, ht]

/-- C4 witness: the entry `{name := "ls", section := "1"}` satisfies the
hypotheses and round-trips through its address path. -/
theorem c4_witness :
    parseManEntry ((formatAddress ⟨['l', 's'], ['1']⟩).drop 4) =
      .ok ⟨['l', 's'], ['1']⟩ :=
  c4_roundtrip ⟨['l', 's'], ['1']⟩ (by decide) (by decide) (by decide) (by decide)

/-- C5 counterexample: leading whitespace before the name is kept by
`parseManEntry` (the source only applies `trimEnd`), so the name is not
returned with leading whitespace stripped. -/
theorem c5_counterexample :
    parseManEntry (' ' :: ' ' :: "foo-bar (3) some description".toList) =
      .ok ⟨' ' :: ' ' :: "foo-bar".toList, ['3']⟩ ∧
    (' ' :: ' ' :: "foo-bar".toList) ≠ "foo-bar".toList :=
  ⟨by rfl, by decide⟩

/-- C5 (amended): for every well-formed apropos line
`<name> (<section>) <description>`, `parseManEntry` returns the name with
trailing (but not leading) whitespace stripped and the section equal to
the text before the first `')'` of the tail; in particular
`"foo-bar (3) some description"` parses to
`{name := "foo-bar", section := "3"}`. -/
theorem c5_parse_wellformed :
    (∀ nm sec desc : List Char, '(' ∉ nm → '(' ∉ sec → ')' ∉ sec →
        parseManEntry (nm ++ ' ' :: '(' :: (sec ++ ')' :: ' ' :: desc)) =
          .ok ⟨trimEnd nm, sec⟩) ∧
    parseManEntry "foo-bar (3) some description".toList =
      .ok ⟨"foo-bar".toList, ['3']⟩ := by
  constructor
  · intro nm sec desc hn hs1 hs2
    rw [append_space_paren, parseManEntry_split (not_paren_append_space hn)]
    rw [section_extract hs1 hs2, trimEnd_append_space]
  · rfl

/-- C5 witness: instantiating the amended statement on the concrete line
`"abc (2) d"`. -/
theorem c5_witness :
    parseManEntry (['a', 'b', 'c'] ++ ' ' :: '(' :: (['2'] ++ ')' :: ' ' :: ['d'])) =
      .ok ⟨trimEnd ['a', 'b', 'c'], ['2']⟩ :=
  c5_parse_wellformed.1 ['a', 'b', 'c'] ['2'] ['d'] (by decide) (by decide) (by decide)

/-- C6 counterexample: `parseManEntry` can produce an empty name (line
starting with `'('`), a name containing a parenthesis character `')'`,
and a section that is not the text between the first `'('` and the
following `')'` (when a second `'('` intervenes). -/
theorem c6_counterexample :
    (parseManEntry "(1) x".toList = .ok ⟨[], ['1']⟩) ∧
    (parseManEntry ")a (1)".toList = .ok ⟨[')', 'a'], ['1']⟩ ∧ ')' ∈ [')', 'a']) ∧
    (parseManEntry "a (b(c) d".toList = .ok ⟨['a'], ['b']⟩ ∧
      (['b'] : List Char) ≠ ['b', '(', 'c']) :=
  ⟨by rfl, ⟨by rfl, by decide⟩, ⟨by rfl, by decide⟩⟩

/-- C6 (amended): every `ManEntry` produced by `parseManEntry` has a name
containing no `'('` (though it may be empty or contain `')'`) and a
section containing neither `'('` nor `')'`; and whenever the source line
decomposes as `pre ++ '(' ++ mid ++ ')' ++ post` with no `'('` in `pre`
or `mid` and no `')'` in `mid`, the section is exactly `mid`. -/
theorem c6_invariant (s : List Char) (e : ManEntry) (h : parseManEntry s = .ok e) :
    ('(' ∉ e.name ∧ '(' ∉ e.«section» ∧ ')' ∉ e.«section») ∧
      ∀ pre mid post, s = pre ++ '(' :: (mid ++ ')' :: post) →
        '(' ∉ pre → '(' ∉ mid → ')' ∉ mid → e.«section» = mid := by
  have hmem : '(' ∈ s := by
    by_contra hnot
    rw [parseManEntry_no_paren hnot] at h
    exact Except.noConfusion h
  obtain ⟨pre, rest, rfl, hpre⟩ := exists_first_split hmem
  have he : (⟨trimEnd pre, (rest.takeWhile (· ≠ '(')).takeWhile (· ≠ ')')⟩ : ManEntry) = e :=
    Except.ok.inj ((parseManEntry_split hpre rest).symm.trans h)
  subst he
  constructor
  · refine ⟨fun hx => hpre (mem_trimEnd_mem hx), fun hx => ?_, fun hx => ?_⟩
    · have hp := mem_takeWhile_pred (mem_takeWhile_mem hx)
      simp at hp
    · have hp := mem_takeWhile_pred hx
      simp at hp
  · intro pre' mid post heq hpre' hmid1 hmid2
    rcases first_split_unique heq hpre hpre' with ⟨_, hrest⟩
    simp only [hrest]
    exact section_extract hmid1 hmid2 post

/-- C6 witness: on the line `"a (1) x"` the parser produces
`{name := "a", section := "1"}`, whose fields satisfy the amended
invariant. -/
theorem c6_witness :
    '(' ∉ (⟨['a'], ['1']⟩ : ManEntry).name ∧
      '(' ∉ (⟨['a'], ['1']⟩ : ManEntry).«section» ∧
      ')' ∉ (⟨['a'], ['1']⟩ : ManEntry).«section» :=
  (c6_invariant "a (1) x".toList ⟨['a'], ['1']⟩ (by rfl)).1

/-- `[a-z]` of the link pattern (`extension.ts` line 54). -/
def isLowerAscii (c : Char) : Bool := 'a' ≤ c && c ≤ 'z'

/-- `[\w-]` of the link pattern: a JavaScript word character (ASCII
letter, digit or underscore) or a hyphen. -/
def isWordHyphen (c : Char) : Bool :=
  ('a' ≤ c && c ≤ 'z') || ('A' ≤ c && c ≤ 'Z') || ('0' ≤ c && c ≤ '9') ||
    c = '_' || c = '-'

/-- `\d` of the link pattern. -/
def isDigitAscii (c : Char) : Bool := '0' ≤ c && c ≤ '9'

/-- One attempt of the regex `/[a-z][\w-]+\(\d\)/` at the start of `cs`,
returning the length of the match if it succeeds.  Since `'('` is not a
word character, the greedy `[\w-]+` can only be followed by `'('` at its
maximal run, so JavaScript's backtracking search at a position is
equivalent to this deterministic check. -/
def matchRefAt : List Char → Option Nat
  | [] => none
  | c :: rest =>
    if isLowerAscii c then
      if (rest.takeWhile isWordHyphen).isEmpty then none
      else
        match rest.drop (rest.takeWhile isWordHyphen).length with
        | '(' :: d :: ')' :: _ =>
          if isDigitAscii d then some ((rest.takeWhile isWordHyphen).length + 4) else none
        | _ => none
    else none

/-- The scan of one line by `matchAll` (`extension.ts` lines 54–60):
emit the leftmost match, then resume immediately after the matched text.
`fuel` bounds the recursion; `scanLine` instantiates it with the line
length, which suffices because every step consumes at least one
character. -/
def scanLineF : Nat → Nat → List Char → List (Nat × Nat)
  | 0, _, _ => []
  | fuel + 1, col, cs =>
    match matchRefAt cs with
    | some len => (col, len) :: scanLineF fuel (col + len) (cs.drop len)
    | none =>
      match cs with
      | [] => []
      | _ :: rest => scanLineF fuel (col + 1) rest

def scanLine (col : Nat) (cs : List Char) : List (Nat × Nat) :=
  scanLineF cs.length col cs

/-- A contiguous run of characters on one line: the `(line, column)` and
length data of a `vscode.DocumentLink`'s range (`extension.ts` lines
57–58); the spec calls this `TextSpan`. -/
structure TextSpan where
  line : Nat
  startColumn : Nat
  length : Nat
deriving DecidableEq, Repr

def linkLines : List (List Char) → Nat → List TextSpan
  | [], _ => []
  | l :: rest, i =>
    (scanLine 0 l).map (fun pr => ⟨i, pr.1, pr.2⟩) ++ linkLines rest (i + 1)

/-- `provideDocumentLinks` (`extension.ts` lines 44–63): split the text
at newlines and scan every line with the reference pattern, emitting one
span per match. -/
def provideDocumentLinks (text : List Char) : List TextSpan :=
  linkLines (splitOnChar '\n' text) 0

/-- The full-match checker for the reference pattern: a string matches
`/[a-z][\w-]+\(\d\)/` exactly (nothing left over) iff the anchored
attempt consumes its whole length. -/
def refMatch (s : List Char) : Bool :=
  matchRefAt s == some s.length

theorem drop_takeWhile_length {α : Type} (p : α → Bool) (l : List α) :
    l.drop (l.takeWhile p).length = l.dropWhile p := by
  induction l with
  | nil => rfl
  | cons a t ih =>
    by_cases ha : p a = true
    · simp [List.takeWhile_cons, List.dropWhile_cons, ha, ih]
    · simp [List.takeWhile_cons, List.dropWhile_cons, ha]

theorem take_append_len {α : Type} (l r : List α) (n : Nat) :
    (l ++ r).take (l.length + n) = l ++ r.take n := by
  induction l with
  | nil => simp
  | cons a t ih =>
    simp only [List.cons_append, List.length_cons]
    rw [Nat.succ_add, List.take_succ_cons, ih]

theorem matchRefAt_some_iff {cs : List Char} {len : Nat} :
    matchRefAt cs = some len ↔
      ∃ c run d t, cs = c :: (run ++ '(' :: d :: ')' :: t) ∧
        isLowerAscii c = true ∧ run ≠ [] ∧ (∀ x ∈ run, isWordHyphen x = true) ∧
        isDigitAscii d = true ∧ len = run.length + 4 := by
  constructor
  · intro h
    cases cs with
    | nil => cases h
    | cons c rest =>
      simp only [matchRefAt] at h
      by_cases hc : isLowerAscii c = true
      · rw [if_pos hc] at h
        by_cases he : (rest.takeWhile isWordHyphen).isEmpty = true
        · rw [if_pos he] at h
          cases h
        · rw [if_neg he] at h
          split at h
          · rename_i d t hd
            by_cases hg : isDigitAscii d = true
            · rw [if_pos hg] at h
              refine ⟨c, rest.takeWhile isWordHyphen, d, t, ?_, hc, ?_, ?_, hg, ?_⟩
              · have hsplit := List.takeWhile_append_dropWhile (p := isWordHyphen) (l := rest)
                rw [← drop_takeWhile_length isWordHyphen rest, hd] at hsplit
                rw [hsplit]
              · intro hnil
                rw [hnil] at he
                exact he rfl
              · intro x hx
                exact mem_takeWhile_pred hx
              · exact (Option.some.inj h).symm
            · rw [if_neg hg] at h
              cases h
          · cases h
      · rw [if_neg hc] at h
        cases h
  · rintro ⟨c, run, d, t, rfl, hc, hrun, hall, hd, rfl⟩
    have hw : isWordHyphen '(' = false := by decide
    have htake : (run ++ '(' :: d :: ')' :: t).takeWhile isWordHyphen = run := by
      rw [takeWhile_append_all hall]
      simp [List.takeWhile_cons, hw]
    simp only [matchRefAt, hc, if_true, htake]
    have hne : run.isEmpty = false := by
      cases run with
      | nil => exact absurd rfl hrun
      | cons a b => rfl
    rw [hne]
    simp only [Bool.false_eq_true, if_false]
    rw [List.drop_left]
    simp [hd]

theorem matchRefAt_len {cs : List Char} {len : Nat} (h : matchRefAt cs = some len) :
    1 ≤ len ∧ len ≤ cs.length := by
  rcases matchRefAt_some_iff.mp h with ⟨c, run, d, t, rfl, -, -, -, -, rfl⟩
  refine ⟨by omega, ?_⟩
  simp only [List.length_cons, List.length_append]
  omega

theorem matchRefAt_take {cs : List Char} {len : Nat} (h : matchRefAt cs = some len) :
    refMatch (cs.take len) = true := by
  rcases matchRefAt_some_iff.mp h with ⟨c, run, d, t, rfl, hc, hrun, hall, hd, rfl⟩
  have htake : (c :: (run ++ '(' :: d :: ')' :: t)).take (run.length + 4) =
      c :: (run ++ ['(', d, ')']) := by
    have h3 : ('(' :: d :: ')' :: t).take 3 = ['(', d, ')'] := rfl
    calc (c :: (run ++ '(' :: d :: ')' :: t)).take (run.length + 4)
        = c :: ((run ++ '(' :: d :: ')' :: t).take (run.length + 3)) := by
          rw [Nat.add_succ, List.take_succ_cons]
      _ = c :: (run ++ ['(', d, ')']) := by
          rw [take_append_len run _ 3, h3]
  rw [htake]
  have hm : matchRefAt (c :: (run ++ ['(', d, ')'])) = some (run.length + 4) := by
    rw [matchRefAt_some_iff]
    exact ⟨c, run, d, [], rfl, hc, hrun, hall, hd, rfl⟩
  unfold refMatch
  rw [hm]
  simp only [beq_iff_eq, Option.some.injEq, List.length_cons, List.length_append]
  simp

theorem refMatch_matchRefAt {p : List Char} (h : refMatch p = true) (t : List Char) :
    matchRefAt (p ++ t) = some p.length := by
  have hm : matchRefAt p = some p.length := by
    have h2 := h
    unfold refMatch at h2
    exact eq_of_beq h2
  rcases matchRefAt_some_iff.mp hm with ⟨c, run, d, t', heq, hc, hrun, hall, hd, hl⟩
  have hlen2 := congrArg List.length heq
  simp only [List.length_cons, List.length_append] at hlen2
  have ht' : t' = [] := List.length_eq_zero.mp (by omega)
  subst ht'
  have hpt : p ++ t = c :: (run ++ '(' :: d :: ')' :: t) := by
    rw [heq]
    simp
  rw [hpt, matchRefAt_some_iff]
  exact ⟨c, run, d, t, rfl, hc, hrun, hall, hd, by omega⟩

theorem scanLineF_sound {pr : Nat × Nat} :
    ∀ fuel col (cs : List Char), pr ∈ scanLineF fuel col cs →
      ∃ off, pr.1 = col + off ∧ matchRefAt (cs.drop off) = some pr.2 := by
  intro fuel
  induction fuel with
  | zero => intro col cs h; cases h
  | succ fuel ih =>
    intro col cs h
    simp only [scanLineF] at h
    cases hm : matchRefAt cs with
    | some len =>
      rw [hm] at h
      rcases List.mem_cons.mp h with rfl | h'
      · exact ⟨0, by omega, by simpa using hm⟩
      · rcases ih _ _ h' with ⟨off, hcol, hmm⟩
        rw [List.drop_drop] at hmm
        refine ⟨len + off, by omega, ?_⟩
        exact hmm
    | none =>
      rw [hm] at h
      cases cs with
      | nil => cases h
      | cons x rest =>
        rcases ih _ _ h with ⟨off, hcol, hmm⟩
        exact ⟨off + 1, by omega, by simpa using hmm⟩

theorem scanLineF_bounds {pr : Nat × Nat} :
    ∀ fuel col (cs : List Char), pr ∈ scanLineF fuel col cs →
      col ≤ pr.1 ∧ pr.1 + pr.2 ≤ col + cs.length := by
  intro fuel
  induction fuel with
  | zero => intro col cs h; cases h
  | succ fuel ih =>
    intro col cs h
    simp only [scanLineF] at h
    cases hm : matchRefAt cs with
    | some len =>
      rw [hm] at h
      have hlen := matchRefAt_len hm
      rcases List.mem_cons.mp h with rfl | h'
      · exact ⟨Nat.le_refl _, by omega⟩
      · rcases ih _ _ h' with ⟨h1, h2⟩
        rw [List.length_drop] at h2
        exact ⟨by omega, by omega⟩
    | none =>
      rw [hm] at h
      cases cs with
      | nil => cases h
      | cons x rest =>
        rcases ih _ _ h with ⟨h1, h2⟩
        simp only [List.length_cons]
        exact ⟨by omega, by omega⟩

theorem scanLineF_pairwise :
    ∀ fuel col (cs : List Char),
      List.Pairwise (fun a b => a.1 + a.2 ≤ b.1) (scanLineF fuel col cs) := by
  intro fuel
  induction fuel with
  | zero => intro col cs; exact List.Pairwise.nil
  | succ fuel ih =>
    intro col cs
    simp only [scanLineF]
    cases hm : matchRefAt cs with
    | some len =>
      refine List.Pairwise.cons ?_ (ih _ _)
      intro b hb
      have := (scanLineF_bounds _ _ _ hb).1
      omega
    | none =>
      cases cs with
      | nil => exact List.Pairwise.nil
      | cons x rest => exact ih _ _

theorem scanLineF_complete {l off : Nat} :
    ∀ fuel col (cs : List Char), cs.length ≤ fuel →
      matchRefAt (cs.drop off) = some l →
      ∃ pr ∈ scanLineF fuel col cs, pr.1 ≤ col + off ∧ col + off < pr.1 + pr.2 := by
  intro fuel
  induction fuel generalizing off with
  | zero =>
    intro col cs hf hm
    have : cs = [] := List.length_eq_zero.mp (Nat.le_zero.mp hf)
    subst this
    simp only [List.drop_nil] at hm
    cases hm
  | succ fuel ih =>
    intro col cs hf hm
    simp only [scanLineF]
    cases hcs : matchRefAt cs with
    | some len =>
      have hlen := matchRefAt_len hcs
      by_cases hoff : off < len
      · exact ⟨(col, len), List.mem_cons_self _ _, by omega, by omega⟩
      · have hdd : (cs.drop len).drop (off - len) = cs.drop off := by
          rw [List.drop_drop]
          congr 1
          omega
        have hfl : (cs.drop len).length ≤ fuel := by
          rw [List.length_drop]
          omega
        rcases ih _ _ hfl (by rw [hdd]; exact hm) with ⟨pr, hmem, h1, h2⟩
        exact ⟨pr, List.mem_cons_of_mem _ hmem, by omega, by omega⟩
    | none =>
      cases cs with
      | nil =>
        simp only [List.drop_nil] at hm
        cases hm
      | cons x rest =>
        cases off with
        | zero =>
          rw [List.drop_zero] at hm
          rw [hm] at hcs
          cases hcs
        | succ o =>
          have hfl : rest.length ≤ fuel := by
            simp only [List.length_cons] at hf
            omega
          rcases ih _ _ hfl (by simpa using hm) with ⟨pr, hmem, h1, h2⟩
          exact ⟨pr, hmem, by omega, by omega⟩

theorem linkLines_mem {s : TextSpan} :
    ∀ (ls : List (List Char)) (i : Nat), s ∈ linkLines ls i →
      ∃ k, k < ls.length ∧ s.line = i + k ∧
        (s.startColumn, s.length) ∈ scanLine 0 (ls.getD k []) := by
  intro ls
  induction ls with
  | nil => intro i h; cases h
  | cons l rest ih =>
    intro i h
    rcases List.mem_append.mp h with h' | h'
    · rcases List.mem_map.mp h' with ⟨pr, hpr, rfl⟩
      refine ⟨0, by simp, ?_, hpr⟩
      show i = i + 0
      omega
    · rcases ih _ h' with ⟨k, hk, hline, hmem⟩
      refine ⟨k + 1, by simpa using hk, by omega, ?_⟩
      simpa using hmem

theorem linkLines_mem_of {c l : Nat} :
    ∀ (ls : List (List Char)) (i k : Nat), k < ls.length →
      (c, l) ∈ scanLine 0 (ls.getD k []) →
      (⟨i + k, c, l⟩ : TextSpan) ∈ linkLines ls i := by
  intro ls
  induction ls with
  | nil => intro i k hk; cases hk
  | cons hd rest ih =>
    intro i k hk hmem
    cases k with
    | zero =>
      apply List.mem_append_left
      apply List.mem_map.mpr
      exact ⟨(c, l), by simpa using hmem, rfl⟩
    | succ k' =>
      apply List.mem_append_right
      have := ih (i + 1) k' (by simpa using hk) (by simpa using hmem)
      have harith : i + 1 + k' = i + (k' + 1) := by omega
      rw [harith] at this
      exact this

theorem linkLines_line_lb {s : TextSpan} :
    ∀ (ls : List (List Char)) (i : Nat), s ∈ linkLines ls i → i ≤ s.line := by
  intro ls i h
  rcases linkLines_mem ls i h with ⟨k, -, hline, -⟩
  omega

theorem linkLines_pairwise :
    ∀ (ls : List (List Char)) (i : Nat),
      List.Pairwise (fun a b => a.line < b.line ∨
        (a.line = b.line ∧ a.startColumn + a.length ≤ b.startColumn))
        (linkLines ls i) := by
  intro ls
  induction ls with
  | nil => intro i; exact List.Pairwise.nil
  | cons l rest ih =>
    intro i
    rw [linkLines, List.pairwise_append]
    refine ⟨?_, ih _, ?_⟩
    · apply List.Pairwise.map
      · intro a b hab
        exact Or.inr ⟨rfl, hab⟩
      · exact scanLineF_pairwise _ _ _
    · intro a ha b hb
      rcases List.mem_map.mp ha with ⟨pr, -, rfl⟩
      have hlb := linkLines_line_lb rest (i + 1) hb
      left
      show i < b.line
      omega

/-- C9: every `TextSpan` returned by the cross-reference scanner lies
entirely within a single line of the text: its line index is in range
and its start column plus length does not exceed that line's length (so
no span crosses a line boundary). -/
theorem c9_span_within_line (text : List Char) (s : TextSpan)
    (h : s ∈ provideDocumentLinks text) :
    s.line < (splitOnChar '\n' text).length ∧
      s.startColumn + s.length ≤ ((splitOnChar '\n' text).getD s.line []).length := by
  rcases linkLines_mem _ _ h with ⟨k, hk, hline, hmem⟩
  have hb := scanLineF_bounds _ _ _ hmem
  constructor
  · omega
  · have h0 : (0 : Nat) + k = k := by omega
    rw [hline, h0]
    simpa using hb.2

/-- C9 witness: on the one-line text `"ls(1)"` the single span `(0, 0, 5)`
is returned and lies within the line. -/
theorem c9_witness :
    (⟨0, 0, 5⟩ : TextSpan).line < (splitOnChar '\n' "ls(1)".toList).length ∧
      (⟨0, 0, 5⟩ : TextSpan).startColumn + (⟨0, 0, 5⟩ : TextSpan).length ≤
        ((splitOnChar '\n' "ls(1)".toList).getD (⟨0, 0, 5⟩ : TextSpan).line []).length :=
  c9_span_within_line "ls(1)".toList ⟨0, 0, 5⟩ (by decide)

/-- C7 counterexample: on the line `"abc(1)"` both `"abc(1)"` (starting
at column 0) and `"bc(1)"` (starting at column 1) are substrings
matching the pattern, yet the scanner emits exactly one span — so it
does not emit one span per matching substring. -/
theorem c7_counterexample :
    refMatch (("abc(1)".toList.drop 0).take 6) = true ∧
      refMatch (("abc(1)".toList.drop 1).take 5) = true ∧
      provideDocumentLinks "abc(1)".toList = [⟨0, 0, 6⟩] :=
  ⟨by decide, by decide, by rfl⟩

/-- C7 (amended): the scanner emits one span per leftmost
non-overlapping lexical match, scanning each line left to right and
resuming after each match: every emitted span's text matches the
pattern, every matching substring of a line starts at or inside some
emitted span of that line, and spans are emitted in line order and
left-to-right within a line.  Concretely,
`"See git-annotate(1) and ls(1) for details"` yields exactly the spans
`(0,4,15)` and `(0,24,5)`, while `"foo(12)"` and a bare `"(1)"` yield no
spans. -/
theorem c7_scanner :
    (∀ (text : List Char), ∀ s ∈ provideDocumentLinks text,
        s.line < (splitOnChar '\n' text).length ∧
        refMatch ((((splitOnChar '\n' text).getD s.line []).drop s.startColumn).take
          s.length) = true) ∧
    (∀ (text : List Char) (i off l : Nat), i < (splitOnChar '\n' text).length →
        refMatch ((((splitOnChar '\n' text).getD i []).drop off).take l) = true →
        ∃ s ∈ provideDocumentLinks text, s.line = i ∧
          s.startColumn ≤ off ∧ off < s.startColumn + s.length) ∧
    (∀ (text : List Char),
        List.Pairwise (fun a b => a.line < b.line ∨
          (a.line = b.line ∧ a.startColumn + a.length ≤ b.startColumn))
          (provideDocumentLinks text)) ∧
    provideDocumentLinks "See git-annotate(1) and ls(1) for details".toList =
      [⟨0, 4, 15⟩, ⟨0, 24, 5⟩] ∧
    provideDocumentLinks "foo(12)".toList = [] ∧
    provideDocumentLinks "(1)".toList = [] := by
  refine ⟨?_, ?_, ?_, by rfl, by rfl, by rfl⟩
  · intro text s h
    rcases linkLines_mem _ _ h with ⟨k, hk, hline, hmem⟩
    rcases scanLineF_sound _ _ _ hmem with ⟨off, hoff, hmm⟩
    have hoff0 : off = s.startColumn := by omega
    subst hoff0
    refine ⟨by omega, ?_⟩
    have h0 : (0 : Nat) + k = k := by omega
    rw [hline, h0]
    exact matchRefAt_take hmm
  · intro text i off l hi hr
    have hmm : matchRefAt (((splitOnChar '\n' text).getD i []).drop off) =
        some ((((splitOnChar '\n' text).getD i []).drop off).take l).length := by
      have h2 := refMatch_matchRefAt hr ((((splitOnChar '\n' text).getD i []).drop off).drop l)
      rw [List.take_append_drop] at h2
      exact h2
    rcases scanLineF_complete ((splitOnChar '\n' text).getD i []).length 0
        ((splitOnChar '\n' text).getD i []) (Nat.le_refl _) hmm with ⟨pr, hmem, h1, h2⟩
    refine ⟨⟨0 + i, pr.1, pr.2⟩, linkLines_mem_of _ 0 i hi hmem, ?_, ?_, ?_⟩
    · show 0 + i = i
      omega
    · show pr.1 ≤ off
      omega
    · show off < pr.1 + pr.2
      omega
  · intro text
    exact linkLines_pairwise _ _

/-- C7 witness: instantiating the soundness part on the one-line text
`"ls(1)"` and its span `(0, 0, 5)`. -/
theorem c7_witness :
    (⟨0, 0, 5⟩ : TextSpan).line < (splitOnChar '\n' "ls(1)".toList).length ∧
      refMatch ((((splitOnChar '\n' "ls(1)".toList).getD (⟨0, 0, 5⟩ : TextSpan).line
        []).drop (⟨0, 0, 5⟩ : TextSpan).startColumn).take (⟨0, 0, 5⟩ : TextSpan).length)
        = true :=
  c7_scanner.1 "ls(1)".toList ⟨0, 0, 5⟩ (by decide)

/-- First-character class of the heading regex
`/^[A-Z"_.:'][A-Za-z"_.:' ,-]+$/` (`extension.ts` line 78): uppercase
letter, double quote, underscore, period, colon or apostrophe. -/
def isHeadFirst (c : Char) : Bool :=
  ('A' ≤ c && c ≤ 'Z') || c = '"' || c = '_' || c = '.' || c = ':' || c = Char.ofNat 39

/-- Subsequent-character class of the heading regex: the first class
extended with lowercase letters (`A-Za-z` in the source), space, comma
and hyphen. -/
def isHeadRest (c : Char) : Bool :=
  ('A' ≤ c && c ≤ 'Z') || ('a' ≤ c && c ≤ 'z') || c = '"' || c = '_' || c = '.' ||
    c = ':' || c = Char.ofNat 39 || c = ' ' || c = ',' || c = '-'

/-- Anchored match of the heading regex: one first-class character
followed by one or more rest-class characters, consuming the whole
line (so a heading line has at least two characters). -/
def isHeading : List Char → Bool
  | [] => false
  | c :: rest => isHeadFirst c && !rest.isEmpty && rest.all isHeadRest

/-- One `vscode.FoldingRange` (start and end line, inclusive); the kind
argument is always `Region` in the source and is omitted. -/
structure FoldingRange where
  startLine : Nat
  endLine : Nat
deriving DecidableEq, Repr

/-- The loop of `provideFoldingRanges` (`extension.ts` lines 74–83):
scan the given lines, which sit at page indices `i, i+1, …`; at every
heading-classified line close a region `[foldStart, i-1]` and restart
`foldStart` at the heading.  Returns the closed regions and the final
`foldStart`. -/
def foldScan : List (List Char) → Nat → Nat → List FoldingRange × Nat
  | [], _, foldStart => ([], foldStart)
  | l :: rest, i, foldStart =>
    if isHeading l then
      ((⟨foldStart, i - 1⟩ : FoldingRange) :: (foldScan rest (i + 1) i).1,
        (foldScan rest (i + 1) i).2)
    else foldScan rest (i + 1) foldStart

/-- `provideFoldingRanges` (`extension.ts` lines 69–93) on an explicit
list of lines: run the loop from index 3 with `foldStart = 2`; then,
with `to = lines.length - 4`, throw when `foldStart >= to` (line 90) and
otherwise append the final region `[foldStart, to]`.  For pages of fewer
than four lines the JavaScript `to` is negative and the comparison also
throws; natural subtraction gives the same outcome because `foldStart ≥
2 ≥ to` there. -/
def foldCore (lines : List (List Char)) : Except ManualsError (List FoldingRange) :=
  if lines.length - 4 ≤ (foldScan (lines.drop 3) 3 2).2 then .error .invalidManPage
  else .ok ((foldScan (lines.drop 3) 3 2).1 ++
    [⟨(foldScan (lines.drop 3) 3 2).2, lines.length - 4⟩])

/-- `provideFoldingRanges` on raw text: split at newlines
(`extension.ts` line 70) and analyze the lines. -/
def provideFoldingRanges (text : List Char) : Except ManualsError (List FoldingRange) :=
  foldCore (splitOnChar '\n' text)

/-- The page indices of the heading-classified lines among the given
lines, which sit at page indices `i, i+1, …`. -/
def headingIndices : List (List Char) → Nat → List Nat
  | [], _ => []
  | l :: rest, i =>
    if isHeading l then i :: headingIndices rest (i + 1) else headingIndices rest (i + 1)

/-- The regions closed by the fold loop, one per heading index. -/
def regionsOf (foldStart : Nat) : List Nat → List FoldingRange
  | [] => []
  | j :: rest => ⟨foldStart, j - 1⟩ :: regionsOf j rest

theorem foldScan_eq :
    ∀ (ls : List (List Char)) (i fs : Nat),
      foldScan ls i fs =
        (regionsOf fs (headingIndices ls i), (headingIndices ls i).getLastD fs) := by
  intro ls
  induction ls with
  | nil => intro i fs; rfl
  | cons l rest ih =>
    intro i fs
    by_cases hl : isHeading l = true
    · simp only [foldScan, headingIndices, hl, if_true, ih, regionsOf]
      rw [List.getLastD_cons]
    · simp only [foldScan, headingIndices, hl, Bool.false_eq_true, if_false, ih]

theorem headingIndices_lb :
    ∀ (ls : List (List Char)) (i : Nat), ∀ j ∈ headingIndices ls i, i ≤ j := by
  intro ls
  induction ls with
  | nil => intro i j hj; cases hj
  | cons l rest ih =>
    intro i j hj
    by_cases hl : isHeading l = true
    · rw [headingIndices, if_pos hl] at hj
      rcases List.mem_cons.mp hj with rfl | hj'
      · exact Nat.le_refl _
      · have := ih (i + 1) j hj'
        omega
    · rw [headingIndices, if_neg hl] at hj
      have := ih (i + 1) j hj
      omega

theorem headingIndices_sorted :
    ∀ (ls : List (List Char)) (i : Nat),
      List.Pairwise (· < ·) (headingIndices ls i) := by
  intro ls
  induction ls with
  | nil => intro i; exact List.Pairwise.nil
  | cons l rest ih =>
    intro i
    by_cases hl : isHeading l = true
    · rw [headingIndices, if_pos hl]
      refine List.Pairwise.cons ?_ (ih (i + 1))
      intro j hj
      have := headingIndices_lb rest (i + 1) j hj
      omega
    · rw [headingIndices, if_neg hl]
      exact ih (i + 1)

theorem headingIndices_mem :
    ∀ (ls : List (List Char)) (i j : Nat),
      j ∈ headingIndices ls i ↔
        ∃ k, k < ls.length ∧ j = i + k ∧ isHeading (ls.getD k []) = true := by
  intro ls
  induction ls with
  | nil =>
    intro i j
    simp [headingIndices]
  | cons l rest ih =>
    intro i j
    by_cases hl : isHeading l = true
    · rw [headingIndices, if_pos hl]
      simp only [List.mem_cons, ih]
      constructor
      · rintro (rfl | ⟨k, hk, rfl, hh⟩)
        · exact ⟨0, by simp, by omega, by simpa using hl⟩
        · refine ⟨k + 1, ?_, by omega, by simpa using hh⟩
          simp only [List.length_cons]
          omega
      · rintro ⟨k, hk, rfl, hh⟩
        cases k with
        | zero => left; omega
        | succ k' =>
          right
          refine ⟨k', ?_, by omega, ?_⟩
          · simp only [List.length_cons] at hk
            omega
          · rw [List.getD_cons_succ] at hh
            exact hh
    · rw [headingIndices, if_neg hl]
      rw [ih]
      constructor
      · rintro ⟨k, hk, rfl, hh⟩
        refine ⟨k + 1, ?_, by omega, by simpa using hh⟩
        simp only [List.length_cons]
        omega
      · rintro ⟨k, hk, rfl, hh⟩
        cases k with
        | zero =>
          rw [List.getD_cons_zero] at hh
          exact absurd hh hl
        | succ k' =>
          refine ⟨k', ?_, by omega, ?_⟩
          · simp only [List.length_cons] at hk
            omega
          · rw [List.getD_cons_succ] at hh
            exact hh

theorem getD_drop {α : Type} (d : α) :
    ∀ (l : List α) (n k : Nat), (l.drop n).getD k d = l.getD (n + k) d := by
  intro l
  induction l with
  | nil => intro n k; simp [List.drop_nil]
  | cons a t ih =>
    intro n k
    cases n with
    | zero => simp
    | succ n' =>
      rw [List.drop_succ_cons, ih]
      rw [show n' + 1 + k = (n' + k) + 1 from by omega, List.getD_cons_succ]

/-- `headingIndices` over `lines.drop 3` starting at 3 collects exactly
the heading-classified page indices in `[3, lines.length)`. -/
theorem headingIndices_drop_mem (lines : List (List Char)) (j : Nat) :
    j ∈ headingIndices (lines.drop 3) 3 ↔
      3 ≤ j ∧ j < lines.length ∧ isHeading (lines.getD j []) = true := by
  rw [headingIndices_mem]
  constructor
  · rintro ⟨k, hk, rfl, hh⟩
    rw [List.length_drop] at hk
    rw [getD_drop] at hh
    exact ⟨by omega, by omega, hh⟩
  · rintro ⟨h1, h2, h3⟩
    refine ⟨j - 3, ?_, by omega, ?_⟩
    · rw [List.length_drop]
      omega
    · rw [getD_drop, show 3 + (j - 3) = j from by omega]
      exact h3

theorem sorted_mem_ext :
    ∀ (l₁ l₂ : List Nat), List.Pairwise (· < ·) l₁ → List.Pairwise (· < ·) l₂ →
      (∀ x, x ∈ l₁ ↔ x ∈ l₂) → l₁ = l₂ := by
  intro l₁
  induction l₁ with
  | nil =>
    intro l₂ _ _ hmem
    cases l₂ with
    | nil => rfl
    | cons b t => exact absurd ((hmem b).mpr (List.mem_cons_self b t)) (List.not_mem_nil b)
  | cons a t₁ ih =>
    intro l₂ h₁ h₂ hmem
    cases l₂ with
    | nil => exact absurd ((hmem a).mp (List.mem_cons_self a t₁)) (List.not_mem_nil a)
    | cons b t₂ =>
      have hab : a = b := by
        have ha := (hmem a).mp (List.mem_cons_self a t₁)
        have hb := (hmem b).mpr (List.mem_cons_self b t₂)
        rcases List.mem_cons.mp ha with h' | h'
        · exact h'
        · rcases List.mem_cons.mp hb with h'' | h''
          · exact h''.symm
          · have hx1 := (List.pairwise_cons.mp h₁).1 b h''
            have hx2 := (List.pairwise_cons.mp h₂).1 a h'
            omega
      subst hab
      have htail : ∀ x, x ∈ t₁ ↔ x ∈ t₂ := by
        intro x
        constructor
        · intro hx
          have hlt := (List.pairwise_cons.mp h₁).1 x hx
          rcases List.mem_cons.mp ((hmem x).mp (List.mem_cons_of_mem a hx)) with h' | h'
          · omega
          · exact h'
        · intro hx
          have hlt := (List.pairwise_cons.mp h₂).1 x hx
          rcases List.mem_cons.mp ((hmem x).mpr (List.mem_cons_of_mem a hx)) with h' | h'
          · omega
          · exact h'
      rw [ih t₂ (List.pairwise_cons.mp h₁).2 (List.pairwise_cons.mp h₂).2 htail]

theorem getLastD_mem_or : ∀ (l : List Nat) (d : Nat), l.getLastD d = d ∨ l.getLastD d ∈ l := by
  intro l
  induction l with
  | nil => intro d; left; rfl
  | cons a t ih =>
    intro d
    rw [List.getLastD_cons]
    rcases ih a with h | h
    · right
      rw [h]
      exact List.mem_cons_self a t
    · right
      exact List.mem_cons_of_mem _ h

theorem regions_head (hs : List Nat) (fs tend : Nat) :
    ∃ e, (regionsOf fs hs ++ [(⟨hs.getLastD fs, tend⟩ : FoldingRange)]).head? =
      some (⟨fs, e⟩ : FoldingRange) := by
  cases hs with
  | nil => exact ⟨tend, rfl⟩
  | cons j rest => exact ⟨j - 1, rfl⟩

theorem regions_chain :
    ∀ (hs : List Nat) (fs tend : Nat), List.Pairwise (· < ·) hs → (∀ j ∈ hs, fs < j) →
      hs.getLastD fs < tend →
      List.Chain' (fun a b => b.startLine = a.endLine + 1)
          (regionsOf fs hs ++ [(⟨hs.getLastD fs, tend⟩ : FoldingRange)]) ∧
        ∀ r ∈ regionsOf fs hs ++ [(⟨hs.getLastD fs, tend⟩ : FoldingRange)], r.startLine ≤ r.endLine := by
  intro hs
  induction hs with
  | nil =>
    intro fs tend _ _ hlast
    simp only [regionsOf, List.nil_append, List.getLastD_nil] at hlast ⊢
    refine ⟨List.chain'_singleton _, ?_⟩
    intro r hr
    rcases List.mem_singleton.mp hr with rfl
    show fs ≤ tend
    omega
  | cons j rest ih =>
    intro fs tend hsort hlb hlast
    have hfj : fs < j := hlb j (List.mem_cons_self j rest)
    have hsort' := (List.pairwise_cons.mp hsort).2
    have hlb' : ∀ x ∈ rest, j < x := (List.pairwise_cons.mp hsort).1
    rw [List.getLastD_cons] at hlast
    rcases ih j tend hsort' hlb' hlast with ⟨hch, hse⟩
    simp only [regionsOf, List.cons_append, List.getLastD_cons]
    constructor
    · apply List.chain'_cons'.mpr
      refine ⟨?_, hch⟩
      intro y hy
      rcases regions_head rest j tend with ⟨e, hh⟩
      rw [hh, Option.mem_some_iff] at hy
      subst hy
      show j = (j - 1) + 1
      omega
    · intro r hr
      rcases List.mem_cons.mp hr with rfl | hr'
      · show fs ≤ j - 1
        omega
      · exact hse r hr'

theorem chain_start_lb :
    ∀ (rs : List FoldingRange),
      List.Chain' (fun a b => b.startLine = a.endLine + 1) rs →
      (∀ r ∈ rs, r.startLine ≤ r.endLine) →
      ∀ h0, rs.head? = some h0 → ∀ r ∈ rs, h0.startLine ≤ r.startLine := by
  intro rs
  induction rs with
  | nil => intro _ _ h0 hh; cases hh
  | cons a t ih =>
    intro hch hse h0 hh r hr
    rcases Option.some.inj hh with rfl
    rcases List.mem_cons.mp hr with rfl | hr'
    · exact Nat.le_refl _
    · cases t with
      | nil => cases hr'
      | cons b t' =>
        have hab : b.startLine = a.endLine + 1 := (List.chain'_cons.mp hch).1
        have hbt := (List.chain'_cons.mp hch).2
        have hse' : ∀ x ∈ b :: t', x.startLine ≤ x.endLine :=
          fun x hx => hse x (List.mem_cons_of_mem _ hx)
        have := ih hbt hse' b rfl r hr'
        have haa := hse a (List.mem_cons_self a _)
        omega

theorem chain_mono :
    ∀ (rs : List FoldingRange),
      List.Chain' (fun a b => b.startLine = a.endLine + 1) rs →
      (∀ r ∈ rs, r.startLine ≤ r.endLine) →
      ∀ hl, rs.getLast? = some hl → ∀ r ∈ rs, r.endLine ≤ hl.endLine := by
  intro rs
  induction rs with
  | nil => intro _ _ hl hh; cases hh
  | cons a t ih =>
    intro hch hse hl hh r hr
    cases t with
    | nil =>
      rcases Option.some.inj hh with rfl
      rcases List.mem_singleton.mp hr with rfl
      exact Nat.le_refl _
    | cons b t' =>
      have hab : b.startLine = a.endLine + 1 := (List.chain'_cons.mp hch).1
      have hbt := (List.chain'_cons.mp hch).2
      have hse' : ∀ x ∈ b :: t', x.startLine ≤ x.endLine :=
        fun x hx => hse x (List.mem_cons_of_mem _ hx)
      have hh' : (b :: t').getLast? = some hl := by
        rw [List.getLast?_cons_cons] at hh
        exact hh
      rcases List.mem_cons.mp hr with rfl | hr'
      · have hb := ih hbt hse' hl hh' b (List.mem_cons_self b t')
        have hsb := hse b (List.mem_cons_of_mem _ (List.mem_cons_self b t'))
        omega
      · exact ih hbt hse' hl hh' r hr'

theorem chain_cover :
    ∀ (rs : List FoldingRange) (h0 hl : FoldingRange),
      List.Chain' (fun a b => b.startLine = a.endLine + 1) rs →
      (∀ r ∈ rs, r.startLine ≤ r.endLine) →
      rs.head? = some h0 → rs.getLast? = some hl →
      ∀ j, (h0.startLine ≤ j ∧ j ≤ hl.endLine) ↔
        ∃ r ∈ rs, r.startLine ≤ j ∧ j ≤ r.endLine := by
  intro rs
  induction rs with
  | nil => intro h0 hl _ _ hh; cases hh
  | cons a t ih =>
    intro h0 hl hch hse hh hlast j
    obtain rfl : a = h0 := Option.some.inj hh
    cases t with
    | nil =>
      obtain rfl : a = hl := Option.some.inj hlast
      constructor
      · rintro ⟨h1, h2⟩
        exact ⟨a, List.mem_cons_self a [], h1, h2⟩
      · rintro ⟨r, hr, h1, h2⟩
        rcases List.mem_singleton.mp hr with rfl
        exact ⟨h1, h2⟩
    | cons b t' =>
      have hab : b.startLine = a.endLine + 1 := (List.chain'_cons.mp hch).1
      have hbt := (List.chain'_cons.mp hch).2
      have hse' : ∀ x ∈ b :: t', x.startLine ≤ x.endLine :=
        fun x hx => hse x (List.mem_cons_of_mem _ hx)
      have hlast' : (b :: t').getLast? = some hl := by
        rw [List.getLast?_cons_cons] at hlast
        exact hlast
      have hih := ih b hl hbt hse' rfl hlast' j
      have hmono := chain_mono (b :: t') hbt hse' hl hlast' b (List.mem_cons_self b t')
      have hsb := hse b (List.mem_cons_of_mem _ (List.mem_cons_self b t'))
      have hsa := hse a (List.mem_cons_self a _)
      constructor
      · rintro ⟨h1, h2⟩
        by_cases hj : j ≤ a.endLine
        · exact ⟨a, List.mem_cons_self a _, h1, hj⟩
        · have : b.startLine ≤ j ∧ j ≤ hl.endLine := by omega
          rcases hih.mp this with ⟨r, hr, hr1, hr2⟩
          exact ⟨r, List.mem_cons_of_mem _ hr, hr1, hr2⟩
      · rintro ⟨r, hr, h1, h2⟩
        rcases List.mem_cons.mp hr with rfl | hr'
        · constructor
          · exact h1
          · omega
        · have := hih.mpr ⟨r, hr', h1, h2⟩
          constructor
          · omega
          · exact this.2

theorem chain_disjoint :
    ∀ (rs : List FoldingRange),
      List.Chain' (fun a b => b.startLine = a.endLine + 1) rs →
      (∀ r ∈ rs, r.startLine ≤ r.endLine) →
      List.Pairwise (fun a b => a.endLine < b.startLine) rs := by
  intro rs
  induction rs with
  | nil => intro _ _; exact List.Pairwise.nil
  | cons a t ih =>
    intro hch hse
    have hse' : ∀ x ∈ t, x.startLine ≤ x.endLine :=
      fun x hx => hse x (List.mem_cons_of_mem _ hx)
    cases t with
    | nil => exact List.pairwise_singleton _ _
    | cons b t' =>
      have hab : b.startLine = a.endLine + 1 := (List.chain'_cons.mp hch).1
      have hbt := (List.chain'_cons.mp hch).2
      refine List.Pairwise.cons ?_ (ih hbt hse')
      intro y hy
      have := chain_start_lb (b :: t') hbt hse' b rfl y hy
      omega

theorem foldCore_error_iff (lines : List (List Char)) :
    foldCore lines = .error .invalidManPage ↔
      lines.length - 4 ≤ (headingIndices (lines.drop 3) 3).getLastD 2 := by
  unfold foldCore
  rw [foldScan_eq]
  by_cases hc : lines.length - 4 ≤ (headingIndices (lines.drop 3) 3).getLastD 2
  · rw [if_pos hc]
    exact ⟨fun _ => hc, fun _ => rfl⟩
  · rw [if_neg hc]
    exact ⟨fun h => Except.noConfusion h, fun h => absurd h hc⟩

theorem foldCore_ok_iff (lines : List (List Char)) (ranges : List FoldingRange) :
    foldCore lines = .ok ranges ↔
      (headingIndices (lines.drop 3) 3).getLastD 2 < lines.length - 4 ∧
        ranges = regionsOf 2 (headingIndices (lines.drop 3) 3) ++
          [⟨(headingIndices (lines.drop 3) 3).getLastD 2, lines.length - 4⟩] := by
  unfold foldCore
  rw [foldScan_eq]
  by_cases hc : lines.length - 4 ≤ (headingIndices (lines.drop 3) 3).getLastD 2
  · rw [if_pos hc]
    constructor
    · intro h
      exact Except.noConfusion h
    · rintro ⟨h1, -⟩
      omega
  · rw [if_neg hc]
    constructor
    · intro h
      exact ⟨by omega, (Except.ok.inj h).symm⟩
    · rintro ⟨-, rfl⟩
      rfl

theorem getD_eq_of_all {α : Type} (d : α) :
    ∀ (l : List α) (i : Nat), (∀ x ∈ l, x = d) → l.getD i d = d := by
  intro l
  induction l with
  | nil => intro i _; rfl
  | cons a t ih =>
    intro i h
    cases i with
    | zero =>
      rw [List.getD_cons_zero]
      exact h a (List.mem_cons_self a t)
    | succ i' =>
      rw [List.getD_cons_succ]
      exact ih i' (fun x hx => h x (List.mem_cons_of_mem _ hx))

/-- A page of `n` empty lines. -/
def blankLines (n : Nat) : List (List Char) := List.replicate n []

theorem blank_not_heading (n i : Nat) : isHeading ((blankLines n).getD i []) = false := by
  rw [getD_eq_of_all [] (blankLines n) i (fun x hx => List.eq_of_mem_replicate hx)]
  rfl

/-- C2 counterexample: a page of seven empty lines has no
heading-classified line anywhere, yet the fold analyzer succeeds and
returns the region list `[⟨2, 3⟩]` instead of failing. -/
theorem c2_counterexample :
    (blankLines 7).all (fun l => !isHeading l) = true ∧
      foldCore (blankLines 7) = .ok [⟨2, 3⟩] :=
  ⟨by decide, by rfl⟩

/-- C2 (amended): on a page in which no line at index 3 or beyond is
heading-classified, the fold analyzer fails with the invalid-page error
iff the page has at most 6 lines; with 7 or more lines it succeeds and
returns the single region `[2, total − 4]`. -/
theorem c2_no_heading (lines : List (List Char))
    (h : ∀ i, 3 ≤ i → isHeading (lines.getD i []) = false) :
    (foldCore lines = .error .invalidManPage ↔ lines.length ≤ 6) ∧
      (7 ≤ lines.length → foldCore lines = .ok [⟨2, lines.length - 4⟩]) := by
  have hnil : headingIndices (lines.drop 3) 3 = [] := by
    cases hh : headingIndices (lines.drop 3) 3 with
    | nil => rfl
    | cons j rest =>
      have hj : j ∈ headingIndices (lines.drop 3) 3 := by
        rw [hh]
        exact List.mem_cons_self j rest
      rw [headingIndices_drop_mem] at hj
      rcases hj with ⟨h1, h2, h3⟩
      rw [h j h1] at h3
      cases h3
  constructor
  · rw [foldCore_error_iff, hnil]
    show lines.length - 4 ≤ 2 ↔ lines.length ≤ 6
    omega
  · intro h7
    rw [foldCore_ok_iff, hnil]
    exact ⟨by show (2 : Nat) < lines.length - 4; omega, by rfl⟩

/-- C2 witness: a page of six empty lines satisfies the no-heading
hypothesis and the analyzer fails on it. -/
theorem c2_witness : foldCore (blankLines 6) = .error .invalidManPage :=
  ((c2_no_heading (blankLines 6) (fun i _ => blank_not_heading 6 i)).1).mpr (by decide)

/-- A 12-line synthetic page whose only heading-classified lines are at
indices 3 and 7. -/
def pageTwoHeadings : List (List Char) :=
  [['t'], [], ['x'], "NAME".toList, ['x'], ['x'], ['x'], "SEE ALSO".toList,
    ['x'], ['x'], ['x'], ['x']]

/-- A 12-line page with a well-placed heading at index 3 and a
heading-shaped line at index 9, inside the final four lines. -/
def pageLateHeading : List (List Char) :=
  [['t'], [], ['x'], "NAME".toList, ['x'], ['x'], ['x'], ['x'],
    ['x'], "SEE ALSO".toList, ['x'], ['x']]

/-- C8: whenever the fold analyzer succeeds, the returned regions have
`startLine ≤ endLine`, consecutive regions are adjacent
(`next.startLine = previous.endLine + 1`), distinct regions are
disjoint, and a line `j` is covered by some region exactly when
`2 ≤ j ≤ total − 4`; moreover on a page whose heading-classified lines
at index 3 or beyond are exactly indices 3 and 7, the output is exactly
`[[2,2], [3,6], [7, total−4]]`. -/
theorem c8_partition (lines : List (List Char)) (ranges : List FoldingRange)
    (h : foldCore lines = .ok ranges) :
    (∀ r ∈ ranges, r.startLine ≤ r.endLine) ∧
    List.Chain' (fun a b => b.startLine = a.endLine + 1) ranges ∧
    List.Pairwise (fun a b => a.endLine < b.startLine) ranges ∧
    (∀ j, (2 ≤ j ∧ j ≤ lines.length - 4) ↔
      ∃ r ∈ ranges, r.startLine ≤ j ∧ j ≤ r.endLine) ∧
    ((∀ i, 3 ≤ i → i < lines.length →
        (isHeading (lines.getD i []) = true ↔ i = 3 ∨ i = 7)) →
      ranges = [⟨2, 2⟩, ⟨3, 6⟩, ⟨7, lines.length - 4⟩]) := by
  rw [foldCore_ok_iff] at h
  rcases h with ⟨hlt, rfl⟩
  have hsort := headingIndices_sorted (lines.drop 3) 3
  have hlb : ∀ j ∈ headingIndices (lines.drop 3) 3, 2 < j := by
    intro j hj
    have := headingIndices_lb (lines.drop 3) 3 j hj
    omega
  rcases regions_chain (headingIndices (lines.drop 3) 3) 2 (lines.length - 4)
      hsort hlb hlt with ⟨hch, hse⟩
  refine ⟨hse, hch, chain_disjoint _ hch hse, ?_, ?_⟩
  · intro j
    rcases regions_head (headingIndices (lines.drop 3) 3) 2 (lines.length - 4) with ⟨e, hh⟩
    have hlast := List.getLast?_concat (l := regionsOf 2 (headingIndices (lines.drop 3) 3))
      (a := (⟨(headingIndices (lines.drop 3) 3).getLastD 2, lines.length - 4⟩ : FoldingRange))
    have hcov := chain_cover _ _ _ hch hse hh hlast j
    exact hcov
  · intro hsyn
    have hge7 : 2 ≤ (headingIndices (lines.drop 3) 3).getLastD 2 := by
      rcases getLastD_mem_or (headingIndices (lines.drop 3) 3) 2 with h' | h'
      · omega
      · have := hlb _ h'
        omega
    have hlen7 : 7 ≤ lines.length := by omega
    have h37 : headingIndices (lines.drop 3) 3 = [3, 7] := by
      have hlen8 : 8 ≤ lines.length := by
        by_contra hn
        have hlen : lines.length = 7 := by omega
        have h3 : headingIndices (lines.drop 3) 3 = [3] := by
          apply sorted_mem_ext _ _ hsort (List.pairwise_singleton _ _)
          intro x
          rw [headingIndices_drop_mem]
          constructor
          · rintro ⟨h1, h2, h3⟩
            have := (hsyn x h1 h2).mp h3
            rcases this with rfl | rfl
            · exact List.mem_cons_self 3 []
            · omega
          · intro hx
            rcases List.mem_singleton.mp hx with rfl
            exact ⟨by omega, by omega, (hsyn 3 (by omega) (by omega)).mpr (Or.inl rfl)⟩
        rw [h3] at hlt
        show False
        have : ([3] : List Nat).getLastD 2 = 3 := rfl
        rw [this] at hlt
        omega
      apply sorted_mem_ext _ _ hsort (by decide)
      intro x
      rw [headingIndices_drop_mem]
      constructor
      · rintro ⟨h1, h2, h3⟩
        have := (hsyn x h1 h2).mp h3
        rcases this with rfl | rfl
        · exact List.mem_cons_self 3 [7]
        · exact List.mem_cons_of_mem _ (List.mem_cons_self 7 [])
      · intro hx
        rcases List.mem_cons.mp hx with rfl | hx'
        · exact ⟨by omega, by omega, (hsyn 3 (by omega) (by omega)).mpr (Or.inl rfl)⟩
        · rcases List.mem_singleton.mp hx' with rfl
          exact ⟨by omega, by omega, (hsyn 7 (by omega) (by omega)).mpr (Or.inr rfl)⟩
    rw [h37]
    rfl

/-- C8 witness: on the synthetic 12-line page with headings exactly at
indices 3 and 7 the analyzer succeeds with
`[[2,2], [3,6], [7, 12−4]]`. -/
theorem c8_witness :
    foldCore pageTwoHeadings = .ok [⟨2, 2⟩, ⟨3, 6⟩, ⟨7, 8⟩] ∧
      ([⟨2, 2⟩, ⟨3, 6⟩, ⟨7, 8⟩] : List FoldingRange) =
        [⟨2, 2⟩, ⟨3, 6⟩, ⟨7, pageTwoHeadings.length - 4⟩] := by
  refine ⟨by rfl, ?_⟩
  apply (c8_partition pageTwoHeadings [⟨2, 2⟩, ⟨3, 6⟩, ⟨7, 8⟩] (by rfl)).2.2.2.2
  intro i h3 hlen
  have hl12 : pageTwoHeadings.length = 12 := rfl
  rw [hl12] at hlen
  interval_cases i <;> decide

/-- C10: the fold analyzer fails (with its invalid-page error) iff the
last heading-classified page index in `[3, total lines)` — taken as 2
when no such line exists — is at least `total lines − 4`; in particular
`pageLateHeading`, a 12-line page with a well-placed heading at index 3
and a heading-shaped line at index 9 (inside the final four lines),
makes folding fail. -/
theorem c10_failure_iff :
    (∀ lines : List (List Char),
        (foldCore lines = .error .invalidManPage ↔
          lines.length - 4 ≤ (headingIndices (lines.drop 3) 3).getLastD 2) ∧
        (∀ j, j ∈ headingIndices (lines.drop 3) 3 ↔
          3 ≤ j ∧ j < lines.length ∧ isHeading (lines.getD j []) = true)) ∧
    foldCore pageLateHeading = .error .invalidManPage ∧
    isHeading (pageLateHeading.getD 3 []) = true ∧
    isHeading (pageLateHeading.getD 9 []) = true ∧
    pageLateHeading.length = 12 := by
  refine ⟨?_, by rfl, by decide, by decide, by rfl⟩
  intro lines
  exact ⟨foldCore_error_iff lines, fun j => headingIndices_drop_mem lines j⟩

/-- The heading classifier exactly as the claim states it: the first
character is an uppercase letter, double quote, underscore, period,
colon or apostrophe; every subsequent character is from the same class
extended with space, comma and hyphen (no lowercase letters); at least
one character in total. -/
def claimHeadRest (c : Char) : Bool :=
  ('A' ≤ c && c ≤ 'Z') || c = '"' || c = '_' || c = '.' || c = ':' ||
    c = Char.ofNat 39 || c = ' ' || c = ',' || c = '-'

def claimHeading : List Char → Bool
  | [] => false
  | c :: rest => isHeadFirst c && rest.all claimHeadRest

/-- C3 counterexample: the source classifies `"Ab"` as a heading (its
subsequent-character class contains lowercase letters) although the
claimed classifier rejects it; and the source rejects the one-character
line `"A"` (it requires at least two characters) although the claimed
classifier accepts it. -/
theorem c3_counterexample :
    (isHeading ['A', 'b'] = true ∧ claimHeading ['A', 'b'] = false) ∧
      (isHeading ['A'] = false ∧ claimHeading ['A'] = true) :=
  ⟨⟨by decide, by decide⟩, ⟨by decide, by decide⟩⟩

/-- C3 (amended): a line is heading-classified iff its first character
is in the class "uppercase letter, double quote, underscore, period,
colon, apostrophe", it has at least one subsequent character, and every
subsequent character is in the class "letter (upper or lower case),
double quote, underscore, period, colon, apostrophe, space, comma,
hyphen". -/
theorem c3_heading_iff (line : List Char) :
    isHeading line = true ↔
      ∃ c rest, line = c :: rest ∧ isHeadFirst c = true ∧ rest ≠ [] ∧
        ∀ x ∈ rest, isHeadRest x = true := by
  cases line with
  | nil =>
    simp only [isHeading]
    constructor
    · intro h
      cases h
    · rintro ⟨c, rest, h, -⟩
      cases h
  | cons c rest =>
    simp only [isHeading, Bool.and_eq_true, Bool.not_eq_true']
    constructor
    · rintro ⟨⟨h1, h2⟩, h3⟩
      refine ⟨c, rest, rfl, h1, ?_, fun x hx => List.all_eq_true.mp h3 x hx⟩
      intro hn
      rw [hn] at h2
      cases h2
    · rintro ⟨c', rest', heq, h1, h2, h3⟩
      injection heq with hc hr
      subst hc
      subst hr
      refine ⟨⟨h1, ?_⟩, List.all_eq_true.mpr h3⟩
      cases rest with
      | nil => exact absurd rfl h2
      | cons a t => rfl

end Manuals
